import Mathlib

/-!
Verification of find_minmax.c.

A shallow embedding of `find_minmax.c`: the range scan `find_minmax_single_thr`,
the partition-and-fold of `find_minmax_multi_thr`, the dispatch in `main`, and one
iteration of the signal loop `sighdl_multithr` over the process-wide counters.

C `int` values are integers of Lean; the products, sums and increments that the C code
computes on them are reduced with `wrap32`. A read `dataset[i]` outside the allocated
array has no defined result in C and is reported as `Fault.out_of_bounds i`. Output,
thread names and the release of memory are left out.
-/

namespace FindMinmax

/-! ## Machine integers and the two macros -/

/-- The value of `INT_MAX` in `<limits.h>` for a 32-bit `int`. -/
def INT_MAX : Int := 2147483647

/-- The value of `INT_MIN` in `<limits.h>` for a 32-bit `int`. -/
def INT_MIN : Int := -2147483648

/-- Reduction of an integer to the two's-complement range of a 32-bit `int`. -/
def wrap32 (x : Int) : Int := (x + 2147483648) % 4294967296 - 2147483648

/-- The macro `#define MAX(a,b) ((a) > (b) ? a : b)`. -/
def MAX (a b : Int) : Int := if a > b then a else b

/-- The macro `#define MIN(a,b) ((a) < (b) ? a : b)`. -/
def MIN (a b : Int) : Int := if a < b then a else b

/-! ## The argument record -/

/-- The struct `rlstarg_t`. The pointer `dataset` is the array it points to. -/
structure rlstarg_t where
  min : Int
  max : Int
  thr_count : Int
  dataset : List Int
  dataset_size : Int
  from_ : Int
  to_ : Int
  err : Int
deriving DecidableEq, Repr

/-- Ways in which a run does not reach the end of the computation. -/
inductive Fault where
  | out_of_bounds (i : Int)
  | exit_failure
deriving DecidableEq, Repr

/-- The read `dataset[i]`: defined only for `0 ≤ i < length`. -/
def dataset_at (dataset : List Int) (i : Int) : Option Int :=
  if 0 ≤ i then dataset[i.toNat]? else none

/-! ## find_minmax_single_thr -/

/-- The loop `for (i = from; i <= to; i++)` of `find_minmax_single_thr`, entered with
loop variable `i`. The loop goes on only after a read inside the array, where `i` is
below the array length, so `i + 1` stays in the range of `int`. -/
def scan_loop (rlstarg : rlstarg_t) (i : Int) : Except Fault rlstarg_t :=
  if i ≤ rlstarg.to_ then
    match dataset_at rlstarg.dataset i with
    | none => .error (.out_of_bounds i)
    | some d =>
      scan_loop { rlstarg with min := MIN rlstarg.min d, max := MAX rlstarg.max d } (i + 1)
  else .ok rlstarg
termination_by (rlstarg.to_ + 1 - i).toNat
decreasing_by simp_wf; omega

/-- The function `find_minmax_single_thr` on a non-null argument. -/
def find_minmax_single_thr (rlstarg : rlstarg_t) : Except Fault rlstarg_t :=
  scan_loop { rlstarg with min := INT_MAX, max := 0 } rlstarg.from_

/-! ## find_minmax_multi_thr -/

/-- The record prepared for thread `i` in the first loop of `find_minmax_multi_thr`:
`dataset`, `from` and `to` are assigned, every other field keeps the content `fresh` of
the newly allocated memory. -/
def thrarg (rlstarg fresh : rlstarg_t) (i : Int) : rlstarg_t :=
  let chunk := wrap32 (Int.tdiv rlstarg.dataset_size rlstarg.thr_count)
  let from_ := wrap32 (i * chunk)
  { fresh with
    dataset := rlstarg.dataset
    from_ := from_
    to_ := MIN (wrap32 (wrap32 (from_ + chunk) - 1)) chunk }

/-- The threads created by the first loop, each running `find_minmax_single_thr` on its
own record; every allocation and every `pthread_create` succeeds. The threads read the
shared array and write only their own record, so each outcome is a function of that
record. -/
def spawn_all (rlstarg : rlstarg_t) (fresh : Nat → rlstarg_t) :
    List (Except Fault rlstarg_t) :=
  (List.range rlstarg.thr_count.toNat).map
    fun i => find_minmax_single_thr (thrarg rlstarg (fresh i) i)

/-- The second loop: every thread is joined; the records are available afterwards. -/
def join_all : List (Except Fault rlstarg_t) → Except Fault (List rlstarg_t)
  | [] => .ok []
  | .error e :: _ => .error e
  | .ok r :: rest =>
    match join_all rest with
    | .ok rs => .ok (r :: rs)
    | .error e => .error e

/-- The third loop: `rlstarg->min = MIN(rlstarg->min, thrargs[i]->min)` and
`rlstarg->max = MAX(rlstarg->max, thrargs[i]->max)` for each thread in turn. -/
def fold_results (rlstarg : rlstarg_t) : List rlstarg_t → rlstarg_t
  | [] => rlstarg
  | t :: ts =>
    fold_results { rlstarg with min := MIN rlstarg.min t.min, max := MAX rlstarg.max t.max } ts

/-- The function `find_minmax_multi_thr` on a non-null argument. -/
def find_minmax_multi_thr (rlstarg : rlstarg_t) (fresh : Nat → rlstarg_t) :
    Except Fault rlstarg_t :=
  match join_all (spawn_all rlstarg fresh) with
  | .error e => .error e
  | .ok thrargs => .ok (fold_results rlstarg thrargs)

/-! ## main -/

/-- The computation of `main`. `dataset_size` is `atoi(argv[1])`, `thr_arg` is
`atoi(argv[2])` when that argument is present, `data` is the content of the allocated
array after `dataset_init`, `rlst0` is the content of the local `rlst` before any field
is assigned, and `fresh` the content of the records allocated for the threads. -/
def main (dataset_size : Int) (thr_arg : Option Int) (data : List Int)
    (rlst0 : rlstarg_t) (fresh : Nat → rlstarg_t) : Except Fault rlstarg_t :=
  if dataset_size < 2 then .error .exit_failure
  else
    let rlst : rlstarg_t :=
      { rlst0 with
        err := 0
        dataset_size := dataset_size
        from_ := 0
        to_ := dataset_size
        thr_count := match thr_arg with
          | none => 1
          | some n => n
        dataset := data }
    if rlst.thr_count < 2 then find_minmax_single_thr rlst
    else find_minmax_multi_thr rlst fresh

/-! ## The signal thread -/

/-- The value of `SIGHUP` in `<signal.h>` on Linux. -/
def SIGHUP : Int := 1

/-- The value of `SIGINT` in `<signal.h>` on Linux. -/
def SIGINT : Int := 2

/-- The value of `SIGUSR1` in `<signal.h>` on Linux (x86, ARM). -/
def SIGUSR1 : Int := 10

/-- The value of `SIGUSR2` in `<signal.h>` on Linux (x86, ARM). -/
def SIGUSR2 : Int := 12

/-- The value of `SIGTERM` in `<signal.h>` on Linux. -/
def SIGTERM : Int := 15

/-- The value of `EINTR` in `<errno.h>` on Linux. -/
def EINTR : Int := 4

/-- The seven file-scope counters, all zero at program start. -/
structure SignalState where
  termsig : Int
  usr1sig : Int
  usr2sig : Int
  intsig : Int
  intrsig : Int
  sigwaitinfo_err : Int
  sigmisshdl_err : Int
deriving DecidableEq, Repr

/-- The state at program start. -/
def SignalState.init : SignalState := ⟨0, 0, 0, 0, 0, 0, 0⟩

/-- The pre-increment `++x` of an `int`. -/
def incr (x : Int) : Int := wrap32 (x + 1)

/-- The handler `sigusr1_hdl`: `++usr1sig`. -/
def sigusr1_hdl (g : SignalState) : SignalState := { g with usr1sig := incr g.usr1sig }

/-- The handler `sigusr2_hdl`: `++usr2sig`. -/
def sigusr2_hdl (g : SignalState) : SignalState := { g with usr2sig := incr g.usr2sig }

/-- The handler `sigintr_hdl`: `++intsig`. -/
def sigintr_hdl (g : SignalState) : SignalState := { g with intsig := incr g.intsig }

/-- The handler `sigterm_hdl`: `termsig = 1`. -/
def sigterm_hdl (g : SignalState) : SignalState := { g with termsig := 1 }

/-- The `switch (sig)` statement of `sighdl_multithr`. -/
def sig_switch (g : SignalState) (sig : Int) : SignalState :=
  if sig = SIGTERM ∨ sig = SIGHUP ∨ sig = SIGINT then sigterm_hdl g
  else if sig = SIGUSR1 then sigusr1_hdl g
  else if sig = SIGUSR2 then sigusr2_hdl g
  else { g with sigmisshdl_err := incr g.sigmisshdl_err }

/-- One iteration of the `while (1)` loop of `sighdl_multithr`, in which `sigwaitinfo`
returned `sig` and left `errno` as given. -/
def sighdl_multithr_iter (g : SignalState) (sig errno : Int) : SignalState :=
  if -1 = sig then
    if EINTR = errno then
      let g := sigintr_hdl g
      { g with intrsig := incr g.intrsig }
    else
      sig_switch { g with sigwaitinfo_err := incr g.sigwaitinfo_err } sig
  else sig_switch g sig

/-- The loop of `sighdl_multithr` over a finite sequence of returns `(sig, errno)` of
`sigwaitinfo`. -/
def sighdl_multithr (g : SignalState) (events : List (Int × Int)) : SignalState :=
  events.foldl (fun g e => sighdl_multithr_iter g e.1 e.2) g

/-- The signals of the first `case` group of the switch. -/
def terminate_class (sig : Int) : Prop := sig = SIGTERM ∨ sig = SIGHUP ∨ sig = SIGINT

instance (sig : Int) : Decidable (terminate_class sig) := by
  unfold terminate_class; exact inferInstance

/-- The elements `dataset[i], ..., dataset[i+n-1]`. -/
def slice (l : List Int) (i : Int) (n : Nat) : List Int := (l.drop i.toNat).take n

/-- The record a thread leaves behind when every index of its range is inside the
array: `MIN` folded from `INT_MAX` and `MAX` folded from 0 over `dataset[from..to]`. -/
def thread_result (t : rlstarg_t) : rlstarg_t :=
  { t with
    min := (slice t.dataset t.from_ (t.to_ + 1 - t.from_).toNat).foldl MIN INT_MAX
    max := (slice t.dataset t.from_ (t.to_ + 1 - t.from_).toNat).foldl MAX 0 }

/-! ## Records used in the examples -/

/-- A record with `dataset_size = 7` and `thr_count = 4`. -/
def size7_thr4 : rlstarg_t := ⟨0, 0, 4, [], 7, 0, 7, 0⟩

/-- A record with `dataset_size = 2` and `thr_count = 7`. -/
def size2_thr7 : rlstarg_t := ⟨0, 0, 7, [], 2, 0, 2, 0⟩

/-- Newly allocated records whose content is all zero. -/
def zero_record (_ : Int) : rlstarg_t := ⟨0, 0, 0, [], 0, 0, 0, 0⟩

/-! ## Lemmas on the scan loop -/

theorem scan_loop_exit (r : rlstarg_t) (i : Int) (h : r.to_ < i) :
    scan_loop r i = .ok r := by
  rw [scan_loop, if_neg (not_le.mpr h)]

theorem scan_loop_step (r : rlstarg_t) (i d : Int) (h : i ≤ r.to_)
    (hd : dataset_at r.dataset i = some d) :
    scan_loop r i = scan_loop { r with min := MIN r.min d, max := MAX r.max d } (i + 1) := by
  rw [scan_loop, if_pos h, hd]

theorem scan_loop_fault (r : rlstarg_t) (i : Int) (h : i ≤ r.to_)
    (hd : dataset_at r.dataset i = none) :
    scan_loop r i = .error (.out_of_bounds i) := by
  rw [scan_loop, if_pos h, hd]

theorem dataset_at_of_lt (l : List Int) (i : Int) (h0 : 0 ≤ i) (h : i.toNat < l.length) :
    dataset_at l i = some (l.get ⟨i.toNat, h⟩) := by
  simp [dataset_at, h0, List.getElem?_eq_getElem h]

theorem dataset_at_length (l : List Int) : dataset_at l l.length = none := by
  simp [dataset_at]

theorem slice_succ (l : List Int) (i : Int) (n : Nat) (h0 : 0 ≤ i) (h : i.toNat < l.length) :
    slice l i (n + 1) = l.get ⟨i.toNat, h⟩ :: slice l (i + 1) n := by
  unfold slice
  have e : (i + 1).toNat = i.toNat + 1 := by omega
  rw [e, List.drop_eq_getElem_cons h, List.take_succ_cons]
  rfl

/-- In-bounds scan: the loop entered at `i` with `n` indices left up to `to` folds
`MIN` and `MAX` over those `n` elements. -/
theorem scan_loop_eq (n : Nat) : ∀ (r : rlstarg_t) (i : Int), 0 ≤ i →
    (r.to_ + 1 - i).toNat = n → r.to_ < r.dataset.length →
    scan_loop r i = .ok { r with min := (slice r.dataset i n).foldl MIN r.min,
                                 max := (slice r.dataset i n).foldl MAX r.max } := by
  induction n with
  | zero =>
    intro r i _ hn _
    rw [scan_loop_exit r i (by omega)]
    simp [slice]
  | succ n ih =>
    intro r i h0 hn hlen
    have hi : i.toNat < r.dataset.length := by omega
    rw [scan_loop_step r i _ (by omega) (dataset_at_of_lt _ _ h0 hi)]
    rw [ih _ _ (by omega) (by simp; omega) (by simpa using hlen)]
    simp [slice_succ _ _ _ h0 hi]

/-- A scan whose upper bound reaches the array length reads one element past the end. -/
theorem scan_loop_overrun (n : Nat) : ∀ (r : rlstarg_t) (i : Int), 0 ≤ i →
    i + n = r.dataset.length → (r.dataset.length : Int) ≤ r.to_ →
    scan_loop r i = .error (.out_of_bounds r.dataset.length) := by
  induction n with
  | zero =>
    intro r i _ hn hto
    have e : i = r.dataset.length := by omega
    subst e
    exact scan_loop_fault r _ hto (dataset_at_length _)
  | succ n ih =>
    intro r i h0 hn hto
    have hi : i.toNat < r.dataset.length := by omega
    rw [scan_loop_step r i _ (by omega) (dataset_at_of_lt _ _ h0 hi)]
    exact ih _ _ (by omega) (by simp; omega) (by simpa using hto)


/-! ## Machine arithmetic -/

theorem wrap32_id (x : Int) (h1 : INT_MIN ≤ x) (h2 : x ≤ INT_MAX) : wrap32 x = x := by
  unfold INT_MIN at h1
  unfold INT_MAX at h2
  unfold wrap32
  omega

theorem incr_eq (x : Int) (h1 : INT_MIN ≤ x) (h2 : x < INT_MAX) : incr x = x + 1 := by
  unfold INT_MIN at h1
  unfold INT_MAX at h2
  unfold incr wrap32
  omega

theorem MIN_eq_min (a b : Int) : MIN a b = min a b := by
  unfold MIN
  split_ifs <;> omega

theorem MAX_eq_max (a b : Int) : MAX a b = max a b := by
  unfold MAX
  split_ifs <;> omega

/-! ## The signal thread -/

theorem sig_switch_termsig (g : SignalState) (sig : Int) :
    (sig_switch g sig).termsig = if terminate_class sig then 1 else g.termsig := by
  unfold sig_switch terminate_class
  split_ifs <;> simp_all [sigterm_hdl, sigusr1_hdl, sigusr2_hdl]

theorem iter_termsig (g : SignalState) (sig errno : Int) :
    (sighdl_multithr_iter g sig errno).termsig =
      if terminate_class sig then 1 else g.termsig := by
  by_cases h1 : -1 = sig
  · subst h1
    have hn : ¬ terminate_class (-1) := by decide
    rw [if_neg hn]
    by_cases h2 : EINTR = errno
    · simp [sighdl_multithr_iter, h2, sigintr_hdl]
    · simp [sighdl_multithr_iter, h2, sig_switch_termsig, hn]
  · simp [sighdl_multithr_iter, h1, sig_switch_termsig]

theorem run_termsig_keep (events : List (Int × Int)) :
    ∀ g : SignalState, g.termsig ≠ 0 → (sighdl_multithr g events).termsig ≠ 0 := by
  induction events with
  | nil => intro g h; exact h
  | cons e es ih =>
    intro g h
    have : sighdl_multithr g (e :: es) = sighdl_multithr (sighdl_multithr_iter g e.1 e.2) es := rfl
    rw [this]
    apply ih
    rw [iter_termsig]
    split_ifs
    · decide
    · exact h

theorem run_termsig_iff (events : List (Int × Int)) :
    ∀ g : SignalState, g.termsig = 0 →
      ((sighdl_multithr g events).termsig ≠ 0 ↔ ∃ e ∈ events, terminate_class e.1) := by
  induction events with
  | nil => intro g h; simp [sighdl_multithr, h]
  | cons e es ih =>
    intro g h
    have step : sighdl_multithr g (e :: es) =
        sighdl_multithr (sighdl_multithr_iter g e.1 e.2) es := rfl
    rw [step]
    by_cases hc : terminate_class e.1
    · have h1 : (sighdl_multithr_iter g e.1 e.2).termsig ≠ 0 := by
        rw [iter_termsig, if_pos hc]; decide
      constructor
      · intro _; exact ⟨e, List.mem_cons_self _ _, hc⟩
      · intro _; exact run_termsig_keep es _ h1
    · have h0 : (sighdl_multithr_iter g e.1 e.2).termsig = 0 := by
        rw [iter_termsig, if_neg hc]; exact h
      rw [ih _ h0]
      constructor
      · rintro ⟨x, hx, hxc⟩; exact ⟨x, List.mem_cons_of_mem _ hx, hxc⟩
      · rintro ⟨x, hx, hxc⟩
        rcases List.mem_cons.mp hx with rfl | hx
        · exact absurd hxc hc
        · exact ⟨x, hx, hxc⟩

/-- C9: from the state at program start, after any finite sequence of returns of
`sigwaitinfo` the flag `termsig` is non-zero exactly when the sequence contains one of
SIGTERM, SIGHUP, SIGINT; and from any state in which `termsig` is non-zero, no
further sequence of events makes it zero again. -/
theorem termsig_terminal (events : List (Int × Int)) :
    ((sighdl_multithr SignalState.init events).termsig ≠ 0 ↔
        ∃ e ∈ events, terminate_class e.1) ∧
    (∀ (g : SignalState) (later : List (Int × Int)),
        g.termsig ≠ 0 → (sighdl_multithr g later).termsig ≠ 0) :=
  ⟨run_termsig_iff events SignalState.init rfl, fun g later h => run_termsig_keep later g h⟩

theorem termsig_terminal_witness :
    (sighdl_multithr SignalState.init [(SIGUSR1, 0), (SIGHUP, 0), (-1, EINTR)]).termsig ≠ 0 ∧
    (sighdl_multithr (sighdl_multithr_iter SignalState.init SIGINT 0)
        [(SIGUSR2, 0), (-1, 5), (77, 0)]).termsig ≠ 0 :=
  ⟨(termsig_terminal [(SIGUSR1, 0), (SIGHUP, 0), (-1, EINTR)]).1.2
      ⟨(SIGHUP, 0), by simp, by decide⟩,
   (termsig_terminal []).2 (sighdl_multithr_iter SignalState.init SIGINT 0)
      [(SIGUSR2, 0), (-1, 5), (77, 0)] (by decide)⟩

/-- C6, as the code has it: one iteration that receives a signal number `sig` (not the
failure value -1) sets `termsig` to 1 for SIGTERM, SIGHUP and SIGINT, increments
`usr1sig` for SIGUSR1, `usr2sig` for SIGUSR2 and `sigmisshdl_err` for every other
number, and changes no other counter; an increment adds one whenever the counter is a
C `int` below `INT_MAX`. -/
theorem signal_classification (g : SignalState) (sig errno : Int) (hsig : sig ≠ -1) :
    (terminate_class sig → sighdl_multithr_iter g sig errno = { g with termsig := 1 }) ∧
    (sig = SIGUSR1 → INT_MIN ≤ g.usr1sig → g.usr1sig < INT_MAX →
      sighdl_multithr_iter g sig errno = { g with usr1sig := g.usr1sig + 1 }) ∧
    (sig = SIGUSR2 → INT_MIN ≤ g.usr2sig → g.usr2sig < INT_MAX →
      sighdl_multithr_iter g sig errno = { g with usr2sig := g.usr2sig + 1 }) ∧
    (¬ terminate_class sig → sig ≠ SIGUSR1 → sig ≠ SIGUSR2 →
      INT_MIN ≤ g.sigmisshdl_err → g.sigmisshdl_err < INT_MAX →
      sighdl_multithr_iter g sig errno = { g with sigmisshdl_err := g.sigmisshdl_err + 1 }) := by
  have hne : ¬ (-1 = sig) := fun h => hsig h.symm
  refine ⟨?_, ?_, ?_, ?_⟩
  · intro hc
    unfold terminate_class at hc
    simp [sighdl_multithr_iter, hne, sig_switch, hc, sigterm_hdl]
  · intro h h1 h2
    subst h
    simp [sighdl_multithr_iter, sig_switch, sigusr1_hdl, incr_eq _ h1 h2, SIGUSR1, SIGTERM,
      SIGHUP, SIGINT]
  · intro h h1 h2
    subst h
    simp [sighdl_multithr_iter, sig_switch, sigusr2_hdl, incr_eq _ h1 h2, SIGUSR1, SIGUSR2,
      SIGTERM, SIGHUP, SIGINT]
  · intro hc h1 h2 h3 h4
    unfold terminate_class at hc
    simp [sighdl_multithr_iter, hne, sig_switch, hc, h1, h2, incr_eq _ h3 h4]

theorem signal_classification_witness :
    sighdl_multithr_iter SignalState.init SIGHUP 0 = { SignalState.init with termsig := 1 } ∧
    sighdl_multithr_iter SignalState.init SIGUSR1 0 =
      { SignalState.init with usr1sig := SignalState.init.usr1sig + 1 } ∧
    sighdl_multithr_iter SignalState.init SIGUSR2 0 =
      { SignalState.init with usr2sig := SignalState.init.usr2sig + 1 } ∧
    sighdl_multithr_iter SignalState.init 77 0 =
      { SignalState.init with sigmisshdl_err := SignalState.init.sigmisshdl_err + 1 } :=
  ⟨(signal_classification SignalState.init SIGHUP 0 (by decide)).1 (by decide),
   (signal_classification SignalState.init SIGUSR1 0 (by decide)).2.1 rfl
      (by decide) (by decide),
   (signal_classification SignalState.init SIGUSR2 0 (by decide)).2.2.1 rfl
      (by decide) (by decide),
   (signal_classification SignalState.init 77 0 (by decide)).2.2.2 (by decide)
      (by decide) (by decide) (by decide) (by decide)⟩

/-- C6 fails as stated: with `termsig` already 1, SIGTERM leaves it at 1 instead of
adding one; and a counter equal to `INT_MAX` does not grow by one. -/
theorem signal_classification_counterexample :
    (sighdl_multithr_iter ⟨1, 0, 0, 0, 0, 0, 0⟩ SIGTERM 0).termsig ≠
        (⟨1, 0, 0, 0, 0, 0, 0⟩ : SignalState).termsig + 1 ∧
    (sighdl_multithr_iter ⟨0, INT_MAX, 0, 0, 0, 0, 0⟩ SIGUSR1 0).usr1sig ≠
        (⟨0, INT_MAX, 0, 0, 0, 0, 0⟩ : SignalState).usr1sig + 1 := by
  decide

/-- C7, as the code has it: in an iteration where `sigwaitinfo` returned -1, with errno
EINTR both `intsig` (through `sigintr_hdl`) and `intrsig` are incremented and nothing
else changes; with any other errno `sigwaitinfo_err` is incremented while `termsig`,
`usr1sig`, `usr2sig`, `intsig` and `intrsig` keep their values. An increment adds one
whenever the counter is a C `int` below `INT_MAX`. -/
theorem failed_wait (g : SignalState) (errno : Int) :
    (errno = EINTR → INT_MIN ≤ g.intsig → g.intsig < INT_MAX →
      INT_MIN ≤ g.intrsig → g.intrsig < INT_MAX →
      sighdl_multithr_iter g (-1) errno =
        { g with intsig := g.intsig + 1, intrsig := g.intrsig + 1 }) ∧
    (errno ≠ EINTR → INT_MIN ≤ g.sigwaitinfo_err → g.sigwaitinfo_err < INT_MAX →
      (sighdl_multithr_iter g (-1) errno).sigwaitinfo_err = g.sigwaitinfo_err + 1 ∧
      (sighdl_multithr_iter g (-1) errno).termsig = g.termsig ∧
      (sighdl_multithr_iter g (-1) errno).usr1sig = g.usr1sig ∧
      (sighdl_multithr_iter g (-1) errno).usr2sig = g.usr2sig ∧
      (sighdl_multithr_iter g (-1) errno).intsig = g.intsig ∧
      (sighdl_multithr_iter g (-1) errno).intrsig = g.intrsig) := by
  constructor
  · intro h h1 h2 h3 h4
    subst h
    simp [sighdl_multithr_iter, sigintr_hdl, incr_eq _ h1 h2, incr_eq _ h3 h4]
  · intro h h1 h2
    have hne : ¬ (EINTR = errno) := fun e => h e.symm
    simp [sighdl_multithr_iter, hne, sig_switch, SIGTERM, SIGHUP, SIGINT, SIGUSR1, SIGUSR2,
      incr_eq _ h1 h2]

theorem failed_wait_witness :
    sighdl_multithr_iter SignalState.init (-1) EINTR =
      { SignalState.init with intsig := SignalState.init.intsig + 1,
                              intrsig := SignalState.init.intrsig + 1 } ∧
    ((sighdl_multithr_iter SignalState.init (-1) 5).sigwaitinfo_err =
        SignalState.init.sigwaitinfo_err + 1 ∧
      (sighdl_multithr_iter SignalState.init (-1) 5).termsig = SignalState.init.termsig ∧
      (sighdl_multithr_iter SignalState.init (-1) 5).usr1sig = SignalState.init.usr1sig ∧
      (sighdl_multithr_iter SignalState.init (-1) 5).usr2sig = SignalState.init.usr2sig ∧
      (sighdl_multithr_iter SignalState.init (-1) 5).intsig = SignalState.init.intsig ∧
      (sighdl_multithr_iter SignalState.init (-1) 5).intrsig = SignalState.init.intrsig) :=
  ⟨(failed_wait SignalState.init EINTR).1 rfl (by decide) (by decide) (by decide) (by decide),
   (failed_wait SignalState.init 5).2 (by decide) (by decide) (by decide)⟩

/-- C7 fails as stated: a wait interrupted with EINTR changes two counters, `intsig`
among them, and a wait that failed with another errno also counts as a mis-handled
signal. -/
theorem failed_wait_counterexample :
    (sighdl_multithr_iter SignalState.init (-1) EINTR).intsig ≠ SignalState.init.intsig ∧
    (sighdl_multithr_iter SignalState.init (-1) EINTR).intrsig ≠ SignalState.init.intrsig ∧
    (sighdl_multithr_iter SignalState.init (-1) 5).sigwaitinfo_err ≠
        SignalState.init.sigwaitinfo_err ∧
    (sighdl_multithr_iter SignalState.init (-1) 5).sigmisshdl_err ≠
        SignalState.init.sigmisshdl_err := by
  decide

/-! ## The fold of the coordinator -/

theorem MIN_right_comm (a b c : Int) : MIN (MIN a b) c = MIN (MIN a c) b := by
  simp only [MIN_eq_min]
  omega

theorem MAX_right_comm (a b c : Int) : MAX (MAX a b) c = MAX (MAX a c) b := by
  simp only [MAX_eq_max]
  omega

/-- C8: the fold `rlstarg->min = MIN(rlstarg->min, t->min)`,
`rlstarg->max = MAX(rlstarg->max, t->max)` over the thread records gives the same
record for every permutation of the list of thread records, whatever the initial
record. -/
theorem fold_results_perm (acc : rlstarg_t) (l1 l2 : List rlstarg_t) (h : l1.Perm l2) :
    fold_results acc l1 = fold_results acc l2 := by
  induction h generalizing acc with
  | nil => rfl
  | cons x _ ih => exact ih _
  | swap x y l =>
    simp only [fold_results]
    rw [MIN_right_comm, MAX_right_comm]
  | trans _ _ ih1 ih2 => exact (ih1 acc).trans (ih2 acc)

theorem fold_results_perm_witness :
    fold_results ⟨7, 7, 3, [], 6, 0, 6, 0⟩
        [⟨1, 5, 0, [], 0, 0, 1, 0⟩, ⟨1, 9, 0, [], 0, 2, 3, 0⟩, ⟨2, 7, 0, [], 0, 4, 5, 0⟩] =
      fold_results ⟨7, 7, 3, [], 6, 0, 6, 0⟩
        [⟨1, 9, 0, [], 0, 2, 3, 0⟩, ⟨1, 5, 0, [], 0, 0, 1, 0⟩, ⟨2, 7, 0, [], 0, 4, 5, 0⟩] :=
  fold_results_perm _ _ _ (List.Perm.swap _ _ _)

/-! ## The reducer -/

theorem find_minmax_single_thr_empty (r : rlstarg_t) (h : r.to_ < r.from_) :
    find_minmax_single_thr r = .ok { r with min := INT_MAX, max := 0 } :=
  scan_loop_exit _ _ h

theorem find_minmax_single_thr_eq (r : rlstarg_t) (n : Nat) (h0 : 0 ≤ r.from_)
    (hn : (r.to_ + 1 - r.from_).toNat = n) (hlen : r.to_ < r.dataset.length) :
    find_minmax_single_thr r =
      .ok { r with min := (slice r.dataset r.from_ n).foldl MIN INT_MAX,
                   max := (slice r.dataset r.from_ n).foldl MAX 0 } :=
  scan_loop_eq n { r with min := INT_MAX, max := 0 } r.from_ h0 hn hlen

/-- Invariant of the scan loop: entered at `i` with `n` indices left, it ends with a
`min` below and a `max` above every element read and the values held at entry, each
of them being the value at entry or one of the elements read. -/
theorem scan_loop_spec (n : Nat) : ∀ (r : rlstarg_t) (i : Int), 0 ≤ i →
    r.to_ + 1 - i = n → r.to_ < r.dataset.length →
    ∃ mn mx, scan_loop r i = .ok { r with min := mn, max := mx } ∧
      mn ≤ r.min ∧ r.max ≤ mx ∧
      (∀ j d, i ≤ j → j ≤ r.to_ → dataset_at r.dataset j = some d → mn ≤ d ∧ d ≤ mx) ∧
      (mn = r.min ∨ ∃ j, i ≤ j ∧ j ≤ r.to_ ∧ dataset_at r.dataset j = some mn) ∧
      (mx = r.max ∨ ∃ j, i ≤ j ∧ j ≤ r.to_ ∧ dataset_at r.dataset j = some mx) := by
  induction n with
  | zero =>
    intro r i _ hn _
    refine ⟨r.min, r.max, ?_, le_refl _, le_refl _, ?_, Or.inl rfl, Or.inl rfl⟩
    · rw [scan_loop_exit r i (by omega)]
    · intro j d h1 h2; omega
  | succ n ih =>
    intro r i h0 hn hlen
    have hi : i.toNat < r.dataset.length := by omega
    obtain ⟨d0, hd⟩ : ∃ d0, dataset_at r.dataset i = some d0 :=
      ⟨_, dataset_at_of_lt _ _ h0 hi⟩
    obtain ⟨mn, mx, hrun, hmn, hmx, hall, hamn, hamx⟩ :=
      ih { r with min := MIN r.min d0, max := MAX r.max d0 } (i + 1)
        (by omega) (by simp; omega) (by simpa using hlen)
    simp only [MIN_eq_min, MAX_eq_max] at hrun hmn hmx hall hamn hamx
    have hmn1 : mn ≤ r.min := le_trans hmn (min_le_left _ _)
    have hmn2 : mn ≤ d0 := le_trans hmn (min_le_right _ _)
    have hmx1 : r.max ≤ mx := le_trans (le_max_left _ _) hmx
    have hmx2 : d0 ≤ mx := le_trans (le_max_right _ _) hmx
    refine ⟨mn, mx, ?_, hmn1, hmx1, ?_, ?_, ?_⟩
    · rw [scan_loop_step r i _ (by omega) hd]
      simpa only [MIN_eq_min, MAX_eq_max] using hrun
    · intro j d h1 h2 hj
      rcases eq_or_lt_of_le h1 with e | hlt
      · subst e
        rw [hd] at hj
        cases hj
        exact ⟨hmn2, hmx2⟩
      · exact hall j d (by omega) h2 hj
    · rcases hamn with e | ⟨j, h1, h2, h3⟩
      · rcases le_total r.min d0 with hle | hle
        · left; rw [e]; exact min_eq_left hle
        · right
          refine ⟨i, le_refl _, by omega, ?_⟩
          rw [hd, e, min_eq_right hle]
      · exact Or.inr ⟨j, by omega, h2, h3⟩
    · rcases hamx with e | ⟨j, h1, h2, h3⟩
      · rcases le_total r.max d0 with hle | hle
        · right
          refine ⟨i, le_refl _, by omega, ?_⟩
          rw [hd, e, max_eq_right hle]
        · left; rw [e]; exact max_eq_left hle
      · exact Or.inr ⟨j, by omega, h2, h3⟩

/-- C4, as the code has it: on a range `0 ≤ from ≤ to < length` of an array of C `int`
values, `find_minmax_single_thr` returns, whatever `min` and `max` held before, a `min`
that is the least element of `dataset[from..to]` and a `max` that bounds every element
of `dataset[from..to]` from above; `max` is the greatest element when some element of
the range is non-negative, and 0 when all of them are negative. -/
theorem reducer_range (rlstarg : rlstarg_t) (h0 : 0 ≤ rlstarg.from_)
    (h1 : rlstarg.from_ ≤ rlstarg.to_) (h2 : rlstarg.to_ < rlstarg.dataset.length)
    (hint : ∀ x ∈ rlstarg.dataset, x ≤ INT_MAX) :
    ∃ mn mx, find_minmax_single_thr rlstarg = .ok { rlstarg with min := mn, max := mx } ∧
      (∃ j, rlstarg.from_ ≤ j ∧ j ≤ rlstarg.to_ ∧ dataset_at rlstarg.dataset j = some mn) ∧
      (∀ j d, rlstarg.from_ ≤ j → j ≤ rlstarg.to_ →
        dataset_at rlstarg.dataset j = some d → mn ≤ d ∧ d ≤ mx) ∧
      ((∃ j d, rlstarg.from_ ≤ j ∧ j ≤ rlstarg.to_ ∧
          dataset_at rlstarg.dataset j = some d ∧ 0 ≤ d) →
        ∃ j, rlstarg.from_ ≤ j ∧ j ≤ rlstarg.to_ ∧ dataset_at rlstarg.dataset j = some mx) ∧
      ((∀ j d, rlstarg.from_ ≤ j → j ≤ rlstarg.to_ →
          dataset_at rlstarg.dataset j = some d → d < 0) → mx = 0) := by
  obtain ⟨mn, mx, hrun, hmn, hmx, hall, hamn, hamx⟩ :=
    scan_loop_spec (rlstarg.to_ + 1 - rlstarg.from_).toNat
      { rlstarg with min := INT_MAX, max := 0 } rlstarg.from_ h0
      (by simp; omega) (by simpa using h2)
  simp only at hrun hmn hmx hall hamn hamx
  have hf : rlstarg.from_.toNat < rlstarg.dataset.length := by omega
  have hdf := dataset_at_of_lt _ _ h0 hf
  have hfmax : rlstarg.dataset.get ⟨rlstarg.from_.toNat, hf⟩ ≤ INT_MAX :=
    hint _ (List.get_mem _ _ _)
  refine ⟨mn, mx, hrun, ?_, hall, ?_, ?_⟩
  · rcases hamn with e | h
    · have := (hall _ _ (le_refl _) h1 hdf).1
      exact ⟨rlstarg.from_, le_refl _, h1, by rw [hdf]; congr 1; omega⟩
    · exact h
  · rintro ⟨j, d, hj1, hj2, hjd, hd0⟩
    rcases hamx with e | h
    · have := (hall j d hj1 hj2 hjd).2
      exact ⟨j, hj1, hj2, by rw [hjd]; congr 1; omega⟩
    · exact h
  · intro hneg
    rcases hamx with e | ⟨j, hj1, hj2, hjd⟩
    · exact e
    · have := hneg j mx hj1 hj2 hjd
      omega

theorem reducer_range_witness :
    ∃ mn mx, find_minmax_single_thr ⟨7, 7, 1, [5, 3, 9, 1, 7, 2], 6, 2, 4, 0⟩ =
        .ok ⟨mn, mx, 1, [5, 3, 9, 1, 7, 2], 6, 2, 4, 0⟩ ∧
      (∃ j, 2 ≤ j ∧ j ≤ 4 ∧ dataset_at [5, 3, 9, 1, 7, 2] j = some mn) ∧
      (∀ j d, 2 ≤ j → j ≤ 4 → dataset_at [5, 3, 9, 1, 7, 2] j = some d → mn ≤ d ∧ d ≤ mx) ∧
      ((∃ j d, 2 ≤ j ∧ j ≤ 4 ∧ dataset_at [5, 3, 9, 1, 7, 2] j = some d ∧ 0 ≤ d) →
        ∃ j, 2 ≤ j ∧ j ≤ 4 ∧ dataset_at [5, 3, 9, 1, 7, 2] j = some mx) ∧
      ((∀ j d, 2 ≤ j → j ≤ 4 → dataset_at [5, 3, 9, 1, 7, 2] j = some d → d < 0) → mx = 0) :=
  reducer_range ⟨7, 7, 1, [5, 3, 9, 1, 7, 2], 6, 2, 4, 0⟩ (by decide) (by decide) (by decide)
    (by decide)

/-- C4 fails as stated: on the all-negative array `[-3, -1]` the scan of the whole
array returns `max = 0`, which is not an element of the array. -/
theorem reducer_range_counterexample :
    find_minmax_single_thr ⟨7, 7, 1, [-3, -1], 2, 0, 1, 0⟩ =
        .ok ⟨-3, 0, 1, [-3, -1], 2, 0, 1, 0⟩ ∧
    (0 : Int) ∉ [(-3 : Int), -1] :=
  ⟨(find_minmax_single_thr_eq _ 2 (by decide) (by decide) (by decide)).trans rfl,
   by decide⟩

/-- C5, as the code has it: on a range with `from > to`, `find_minmax_single_thr`
returns `min = INT_MAX` and `max = 0` and reads nothing; folding that record into a
record `p` leaves `p` unchanged exactly when `p.min ≤ INT_MAX` and `0 ≤ p.max`. -/
theorem degenerate_range (rlstarg : rlstarg_t) (h : rlstarg.to_ < rlstarg.from_) :
    find_minmax_single_thr rlstarg = .ok { rlstarg with min := INT_MAX, max := 0 } ∧
    ∀ p : rlstarg_t,
      fold_results p [{ rlstarg with min := INT_MAX, max := 0 }] = p ↔
        (p.min ≤ INT_MAX ∧ 0 ≤ p.max) := by
  refine ⟨find_minmax_single_thr_empty _ h, ?_⟩
  intro p
  rcases p with ⟨a, b, c, d, e, f, g, k⟩
  simp only [fold_results, MIN_eq_min, MAX_eq_max, rlstarg_t.mk.injEq, and_true, true_and]
  constructor
  · rintro ⟨h1, h2⟩
    exact ⟨by omega, by omega⟩
  · rintro ⟨h1, h2⟩
    exact ⟨by omega, by omega⟩

theorem degenerate_range_witness :
    find_minmax_single_thr ⟨7, 7, 3, [5, 3, 9], 3, 6, 1, 0⟩ =
        .ok ⟨INT_MAX, 0, 3, [5, 3, 9], 3, 6, 1, 0⟩ ∧
    (fold_results ⟨3, 9, 3, [5, 3, 9], 3, 0, 3, 0⟩ [⟨INT_MAX, 0, 3, [5, 3, 9], 3, 6, 1, 0⟩] =
        ⟨3, 9, 3, [5, 3, 9], 3, 0, 3, 0⟩ ↔ ((3 : Int) ≤ INT_MAX ∧ (0 : Int) ≤ 9)) :=
  ⟨(degenerate_range ⟨7, 7, 3, [5, 3, 9], 3, 6, 1, 0⟩ (by decide)).1,
   (degenerate_range ⟨7, 7, 3, [5, 3, 9], 3, 6, 1, 0⟩ (by decide)).2 _⟩

/-- C5 fails as stated: the record returned for the range `from = 1 > to = 0` has
`max = 0`, not `INT_MIN`, and folding it into a record whose `max` is `-3` changes
that `max` to 0. -/
theorem degenerate_range_counterexample :
    find_minmax_single_thr ⟨7, 7, 1, [4, 2], 2, 1, 0, 0⟩ =
        .ok ⟨INT_MAX, 0, 1, [4, 2], 2, 1, 0, 0⟩ ∧
    (0 : Int) ≠ INT_MIN ∧
    fold_results ⟨-5, -3, 1, [], 0, 0, 0, 0⟩ [⟨INT_MAX, 0, 1, [4, 2], 2, 1, 0, 0⟩] =
        ⟨-5, 0, 1, [], 0, 0, 0, 0⟩ :=
  ⟨find_minmax_single_thr_empty _ (by decide), by decide, by decide⟩

/-! ## The ranges assigned to the threads -/

theorem chunk_facts (size W : Int) (hs : 2 ≤ size) (hw : 2 ≤ W) :
    0 ≤ Int.tdiv size W ∧ Int.tdiv size W * W ≤ size ∧ Int.tdiv size W < size := by
  rw [Int.tdiv_eq_ediv (by omega) (by omega)]
  have h0 : 0 ≤ size / W := Int.ediv_nonneg (by omega) (by omega)
  have h1 : size / W * W ≤ size := Int.ediv_mul_le size (by omega)
  refine ⟨h0, h1, ?_⟩
  nlinarith

theorem thrarg_range (r f : rlstarg_t) (i : Int)
    (hs : 2 ≤ r.dataset_size) (hs2 : r.dataset_size ≤ INT_MAX)
    (hw : 2 ≤ r.thr_count) (hi : 0 ≤ i) (hiW : i < r.thr_count) :
    (thrarg r f i).from_ = i * Int.tdiv r.dataset_size r.thr_count ∧
    (thrarg r f i).to_ =
      MIN (i * Int.tdiv r.dataset_size r.thr_count + Int.tdiv r.dataset_size r.thr_count - 1)
        (Int.tdiv r.dataset_size r.thr_count) ∧
    (thrarg r f i).dataset = r.dataset := by
  obtain ⟨hc0, hc1, hc2⟩ := chunk_facts r.dataset_size r.thr_count hs hw
  simp only [thrarg]
  generalize Int.tdiv r.dataset_size r.thr_count = c at hc0 hc1 hc2 ⊢
  have hic0 : 0 ≤ i * c := mul_nonneg hi hc0
  have hic1 : i * c + c ≤ r.dataset_size := by nlinarith
  have e1 : wrap32 c = c := wrap32_id c (by unfold INT_MIN; omega) (by omega)
  have e2 : wrap32 (i * c) = i * c :=
    wrap32_id _ (by unfold INT_MIN; omega) (by omega)
  have e3 : wrap32 (i * c + c) = i * c + c :=
    wrap32_id _ (by unfold INT_MIN; omega) (by omega)
  have e4 : wrap32 (i * c + c - 1) = i * c + c - 1 :=
    wrap32_id _ (by unfold INT_MIN; omega) (by omega)
  rw [e1, e2, e3, e4]
  exact ⟨rfl, rfl, trivial⟩

/-- C10: for `2 ≤ dataset_size` and `2 ≤ thr_count` (both C `int` values), with
`chunk = dataset_size / thr_count`: when `chunk ≥ 1`, thread 0 is given `[0, chunk-1]`,
thread 1 is given `[chunk, chunk]`, every thread `i ≥ 2` is given `from = i*chunk`
and `to = chunk < from`; an index lies in the range of some thread exactly when it is
in `0..chunk`, and `chunk < dataset_size`. When `chunk = 0`, every thread is given a
range with `to < from`. -/
theorem assigned_ranges (rlstarg : rlstarg_t) (fresh : Int → rlstarg_t)
    (hs : 2 ≤ rlstarg.dataset_size) (hs2 : rlstarg.dataset_size ≤ INT_MAX)
    (hw : 2 ≤ rlstarg.thr_count) :
    (1 ≤ Int.tdiv rlstarg.dataset_size rlstarg.thr_count →
      ((thrarg rlstarg (fresh 0) 0).from_ = 0 ∧
        (thrarg rlstarg (fresh 0) 0).to_ =
          Int.tdiv rlstarg.dataset_size rlstarg.thr_count - 1) ∧
      ((thrarg rlstarg (fresh 1) 1).from_ = Int.tdiv rlstarg.dataset_size rlstarg.thr_count ∧
        (thrarg rlstarg (fresh 1) 1).to_ =
          Int.tdiv rlstarg.dataset_size rlstarg.thr_count) ∧
      (∀ i, 2 ≤ i → i < rlstarg.thr_count →
        (thrarg rlstarg (fresh i) i).from_ =
          i * Int.tdiv rlstarg.dataset_size rlstarg.thr_count ∧
        (thrarg rlstarg (fresh i) i).to_ = Int.tdiv rlstarg.dataset_size rlstarg.thr_count ∧
        (thrarg rlstarg (fresh i) i).to_ < (thrarg rlstarg (fresh i) i).from_) ∧
      (∀ j, (∃ i, 0 ≤ i ∧ i < rlstarg.thr_count ∧
            (thrarg rlstarg (fresh i) i).from_ ≤ j ∧ j ≤ (thrarg rlstarg (fresh i) i).to_) ↔
          (0 ≤ j ∧ j ≤ Int.tdiv rlstarg.dataset_size rlstarg.thr_count)) ∧
      Int.tdiv rlstarg.dataset_size rlstarg.thr_count < rlstarg.dataset_size) ∧
    (Int.tdiv rlstarg.dataset_size rlstarg.thr_count = 0 →
      ∀ i, 0 ≤ i → i < rlstarg.thr_count →
        (thrarg rlstarg (fresh i) i).to_ < (thrarg rlstarg (fresh i) i).from_) := by
  obtain ⟨hc0, hc1, hc2⟩ := chunk_facts rlstarg.dataset_size rlstarg.thr_count hs hw
  have R := fun i hi hiW => thrarg_range rlstarg (fresh i) i hs hs2 hw hi hiW
  generalize Int.tdiv rlstarg.dataset_size rlstarg.thr_count = c at hc0 hc1 hc2 R ⊢
  have R0 : (thrarg rlstarg (fresh 0) 0).from_ = 0 ∧ (thrarg rlstarg (fresh 0) 0).to_ = c - 1 := by
    obtain ⟨a, b, _⟩ := R 0 (le_refl _) (by omega)
    rw [a, b, MIN_eq_min]
    constructor <;> omega
  have R1 : 1 ≤ c →
      (thrarg rlstarg (fresh 1) 1).from_ = c ∧ (thrarg rlstarg (fresh 1) 1).to_ = c := by
    intro h1
    obtain ⟨a, b, _⟩ := R 1 (by omega) (by omega)
    rw [a, b, MIN_eq_min]
    constructor <;> omega
  have R2 : 1 ≤ c → ∀ i, 2 ≤ i → i < rlstarg.thr_count →
      (thrarg rlstarg (fresh i) i).from_ = i * c ∧ (thrarg rlstarg (fresh i) i).to_ = c ∧
        (thrarg rlstarg (fresh i) i).to_ < (thrarg rlstarg (fresh i) i).from_ := by
    intro h1 i hi hiW
    obtain ⟨a, b, _⟩ := R i (by omega) hiW
    have hic : 2 * c ≤ i * c := mul_le_mul_of_nonneg_right hi hc0
    rw [a, b, MIN_eq_min]
    refine ⟨rfl, ?_, ?_⟩ <;> omega
  refine ⟨fun h1 => ⟨R0, R1 h1, R2 h1, ?_, hc2⟩, ?_⟩
  · intro j
    constructor
    · rintro ⟨i, hi, hiW, hf, ht⟩
      rcases lt_or_le i 2 with h2 | h2
      · rcases lt_or_le i 1 with h3 | h3
        · have e : i = 0 := by omega
          subst e
          rw [R0.1] at hf
          rw [R0.2] at ht
          omega
        · have e : i = 1 := by omega
          subst e
          rw [(R1 h1).1] at hf
          rw [(R1 h1).2] at ht
          omega
      · have := (R2 h1 i h2 hiW).2.2
        omega
    · rintro ⟨hj0, hjc⟩
      rcases lt_or_le j c with h | h
      · exact ⟨0, le_refl _, by omega, by rw [R0.1]; exact hj0, by rw [R0.2]; omega⟩
      · exact ⟨1, by omega, by omega, by rw [(R1 h1).1]; exact h, by rw [(R1 h1).2]; exact hjc⟩
  · intro hz i hi hiW
    obtain ⟨a, b, _⟩ := R i hi hiW
    rw [a, b, MIN_eq_min, hz]
    simp

theorem assigned_ranges_witness :
    (((thrarg size7_thr4 (zero_record 0) 0).from_ = 0 ∧
        (thrarg size7_thr4 (zero_record 0) 0).to_ = Int.tdiv 7 4 - 1) ∧
      ((thrarg size7_thr4 (zero_record 1) 1).from_ = Int.tdiv 7 4 ∧
        (thrarg size7_thr4 (zero_record 1) 1).to_ = Int.tdiv 7 4) ∧
      (∀ i, 2 ≤ i → i < 4 →
        (thrarg size7_thr4 (zero_record i) i).from_ = i * Int.tdiv 7 4 ∧
        (thrarg size7_thr4 (zero_record i) i).to_ = Int.tdiv 7 4 ∧
        (thrarg size7_thr4 (zero_record i) i).to_ <
          (thrarg size7_thr4 (zero_record i) i).from_) ∧
      (∀ j, (∃ i, 0 ≤ i ∧ i < 4 ∧
            (thrarg size7_thr4 (zero_record i) i).from_ ≤ j ∧
            j ≤ (thrarg size7_thr4 (zero_record i) i).to_) ↔
          (0 ≤ j ∧ j ≤ Int.tdiv 7 4)) ∧
      Int.tdiv 7 4 < 7) ∧
    (∀ i, 0 ≤ i → i < 7 →
      (thrarg size2_thr7 (zero_record i) i).to_ < (thrarg size2_thr7 (zero_record i) i).from_) :=
  ⟨(assigned_ranges size7_thr4 zero_record (by decide) (by decide) (by decide)).1 (by decide),
   (assigned_ranges size2_thr7 zero_record (by decide) (by decide) (by decide)).2 (by decide)⟩

/-- C3 at `dataset_size = 7`, `thr_count = 4`: the four threads are given `[0,0]`,
`[1,1]`, `[2,1]` and `[3,1]`; of the indices 0..6 only 0 and 1 lie in some range, the
indices 2..6 lie in none. -/
theorem partition_size7_thr4 :
    (List.range 4).map (fun i : Nat =>
        ((thrarg size7_thr4 (zero_record i) i).from_, (thrarg size7_thr4 (zero_record i) i).to_)) =
      [(0, 0), (1, 1), (2, 1), (3, 1)] ∧
    (List.range 7).filter (fun j : Nat =>
        (List.range 4).any fun i : Nat =>
          decide ((thrarg size7_thr4 (zero_record i) i).from_ ≤ (j : Int) ∧
            (j : Int) ≤ (thrarg size7_thr4 (zero_record i) i).to_)) =
      [0, 1] := by
  decide

/-! ## main -/

theorem find_minmax_single_thr_total (r : rlstarg_t) (h0 : 0 ≤ r.from_)
    (hlen : r.to_ < r.dataset.length) :
    find_minmax_single_thr r = .ok (thread_result r) :=
  find_minmax_single_thr_eq r _ h0 rfl hlen

/-- The single-threaded path of `main` reads `dataset[dataset_size]`. -/
theorem main_single_overrun (dataset_size : Int) (thr_arg : Option Int) (data : List Int)
    (rlst0 : rlstarg_t) (fresh : Nat → rlstarg_t) (hs : 2 ≤ dataset_size)
    (hlen : (data.length : Int) = dataset_size)
    (hw : ∀ n, thr_arg = some n → n < 2) :
    main dataset_size thr_arg data rlst0 fresh = .error (.out_of_bounds dataset_size) := by
  have hthr : (match thr_arg with | none => (1 : Int) | some n => n) < 2 := by
    cases thr_arg with
    | none => decide
    | some n => exact hw n rfl
  unfold main
  rw [if_neg (by omega)]
  simp only [if_pos hthr]
  unfold find_minmax_single_thr
  rw [← hlen]
  exact scan_loop_overrun data.length _ 0 (le_refl _) (by simp) (by simp [hlen])

/-- C2 at `D = [5, 3, 9, 1, 7, 2]`, `W = 1`: `main` sets `to = 6`, the scan reads
`dataset[6]`, which is outside the six-element array, and no `{min: 1, max: 9}` is
produced. -/
theorem main_single_reads_past_end (rlst0 : rlstarg_t) (fresh : Nat → rlstarg_t) :
    main 6 (some 1) [5, 3, 9, 1, 7, 2] rlst0 fresh = .error (.out_of_bounds 6) :=
  main_single_overrun 6 (some 1) [5, 3, 9, 1, 7, 2] rlst0 fresh (by decide) (by decide)
    (by intro n h; cases h; decide)

/-! ## The multi-threaded path -/

theorem join_all_map_ok (F : Nat → Except Fault rlstarg_t) (G : Nat → rlstarg_t) :
    ∀ l : List Nat, (∀ i ∈ l, F i = .ok (G i)) → join_all (l.map F) = .ok (l.map G) := by
  intro l
  induction l with
  | nil => intro _; rfl
  | cons x xs ih =>
    intro h
    have hx := h x (List.mem_cons_self _ _)
    have hxs := ih (fun i hi => h i (List.mem_cons_of_mem _ hi))
    simp only [List.map_cons, hx, join_all, hxs]

/-- With `2 ≤ dataset_size = length` and `2 ≤ thr_count`, every thread stays inside the
array and `find_minmax_multi_thr` returns the fold of the thread records. -/
theorem find_minmax_multi_thr_ok (r : rlstarg_t) (fresh : Nat → rlstarg_t)
    (hs : 2 ≤ r.dataset_size) (hs2 : r.dataset_size ≤ INT_MAX) (hw : 2 ≤ r.thr_count)
    (hlen : (r.dataset.length : Int) = r.dataset_size) :
    find_minmax_multi_thr r fresh =
      .ok (fold_results r ((List.range r.thr_count.toNat).map
        fun i => thread_result (thrarg r (fresh i) i))) := by
  have h : join_all (spawn_all r fresh) =
      .ok ((List.range r.thr_count.toNat).map
        fun i => thread_result (thrarg r (fresh i) i)) := by
    apply join_all_map_ok
    intro i hi
    have hiW : (i : Int) < r.thr_count := by
      have := List.mem_range.mp hi
      omega
    obtain ⟨a, b, c⟩ := thrarg_range r (fresh i) i hs hs2 hw (by omega) hiW
    obtain ⟨hc0, hc1, hc2⟩ := chunk_facts r.dataset_size r.thr_count hs hw
    apply find_minmax_single_thr_total
    · rw [a]; exact mul_nonneg (by omega) hc0
    · rw [b, c, MIN_eq_min, hlen]
      omega
  unfold find_minmax_multi_thr
  rw [h]

theorem fold_results_eq (ws : List rlstarg_t) : ∀ acc : rlstarg_t,
    fold_results acc ws =
      { acc with min := (ws.map (fun w => w.min)).foldl min acc.min,
                 max := (ws.map (fun w => w.max)).foldl max acc.max } := by
  induction ws with
  | nil => intro acc; rfl
  | cons w ws ih =>
    intro acc
    simp only [fold_results, ih, List.map_cons, List.foldl_cons, MIN_eq_min, MAX_eq_max]

theorem foldl_MIN_eq (l : List Int) (a : Int) : l.foldl MIN a = l.foldl min a := by
  have : MIN = min := by funext x y; exact MIN_eq_min x y
  rw [this]

theorem foldl_MAX_eq (l : List Int) (a : Int) : l.foldl MAX a = l.foldl max a := by
  have : MAX = max := by funext x y; exact MAX_eq_max x y
  rw [this]

theorem foldl_min_init (l : List Int) : ∀ a b : Int,
    l.foldl min (min a b) = min a (l.foldl min b) := by
  induction l with
  | nil => intro a b; rfl
  | cons x xs ih => intro a b; simp only [List.foldl_cons, min_assoc, ih]

theorem foldl_max_init (l : List Int) : ∀ a b : Int,
    l.foldl max (max a b) = max a (l.foldl max b) := by
  induction l with
  | nil => intro a b; rfl
  | cons x xs ih => intro a b; simp only [List.foldl_cons, max_assoc, ih]

theorem foldl_min_le (l : List Int) : ∀ a : Int, l.foldl min a ≤ a := by
  induction l with
  | nil => intro a; exact le_refl _
  | cons x xs ih => intro a; exact le_trans (ih _) (min_le_left _ _)

theorem le_foldl_max (l : List Int) : ∀ a : Int, a ≤ l.foldl max a := by
  induction l with
  | nil => intro a; exact le_refl _
  | cons x xs ih => intro a; exact le_trans (le_max_left _ _) (ih _)

theorem foldl_min_const (B : Int) (l : List Int) (hl : ∀ x ∈ l, x = B) :
    ∀ a : Int, a ≤ B → l.foldl min a = a := by
  induction l with
  | nil => intro a _; rfl
  | cons x xs ih =>
    intro a ha
    have hx : x = B := hl x (List.mem_cons_self _ _)
    simp only [List.foldl_cons, hx, min_eq_left ha]
    exact ih (fun y hy => hl y (List.mem_cons_of_mem _ hy)) a ha

theorem foldl_max_const (B : Int) (l : List Int) (hl : ∀ x ∈ l, x = B) :
    ∀ a : Int, B ≤ a → l.foldl max a = a := by
  induction l with
  | nil => intro a _; rfl
  | cons x xs ih =>
    intro a ha
    have hx : x = B := hl x (List.mem_cons_self _ _)
    simp only [List.foldl_cons, hx, max_eq_left ha]
    exact ih (fun y hy => hl y (List.mem_cons_of_mem _ hy)) a ha

theorem slice_append (l : List Int) (i : Int) (n m : Nat) (hi : 0 ≤ i) :
    slice l i (n + m) = slice l i n ++ slice l (i + n) m := by
  unfold slice
  have e : (i + n).toNat = i.toNat + n := by omega
  rw [List.take_add, List.drop_drop, e]

theorem combine_min (a B : Int) (s0 s1 rest : List Int) (hrest : ∀ x ∈ rest, x = B) :
    rest.foldl min (min (min a (s0.foldl min B)) (s1.foldl min B)) =
      (s0 ++ s1).foldl min (min a B) := by
  rw [foldl_min_const B rest hrest _ (le_trans (min_le_right _ _) (foldl_min_le _ _)),
    List.foldl_append, foldl_min_init s0 a B, ← foldl_min_init s1 _ B,
    min_eq_left (le_trans (min_le_right _ _) (foldl_min_le _ _))]

theorem combine_max (a B : Int) (s0 s1 rest : List Int) (hrest : ∀ x ∈ rest, x = B) :
    rest.foldl max (max (max a (s0.foldl max B)) (s1.foldl max B)) =
      (s0 ++ s1).foldl max (max a B) := by
  rw [foldl_max_const B rest hrest _ (le_trans (le_foldl_max _ _) (le_max_right _ _)),
    List.foldl_append, foldl_max_init s0 a B, ← foldl_max_init s1 _ B,
    max_eq_left (le_trans (le_foldl_max _ _) (le_max_right _ _))]

theorem thread_result_fields (t : rlstarg_t) (D : List Int) (a b : Int)
    (hd : t.dataset = D) (hf : t.from_ = a) (ht : t.to_ = b) :
    (thread_result t).min = (slice D a (b + 1 - a).toNat).foldl min INT_MAX ∧
    (thread_result t).max = (slice D a (b + 1 - a).toNat).foldl max 0 := by
  subst hd hf ht
  exact ⟨foldl_MIN_eq _ _, foldl_MAX_eq _ _⟩

theorem thrarg_zero (r f : rlstarg_t) (hs : 2 ≤ r.dataset_size)
    (hs2 : r.dataset_size ≤ INT_MAX) (hw : 2 ≤ r.thr_count) :
    (thrarg r f 0).from_ = 0 ∧
    (thrarg r f 0).to_ = Int.tdiv r.dataset_size r.thr_count - 1 := by
  obtain ⟨a, b, _⟩ := thrarg_range r f 0 hs hs2 hw (le_refl _) (by omega)
  rw [a, b, MIN_eq_min]
  constructor <;> omega

theorem thrarg_one (r f : rlstarg_t) (hs : 2 ≤ r.dataset_size)
    (hs2 : r.dataset_size ≤ INT_MAX) (hw : 2 ≤ r.thr_count)
    (hc : 1 ≤ Int.tdiv r.dataset_size r.thr_count) :
    (thrarg r f 1).from_ = Int.tdiv r.dataset_size r.thr_count ∧
    (thrarg r f 1).to_ = Int.tdiv r.dataset_size r.thr_count := by
  obtain ⟨a, b, _⟩ := thrarg_range r f 1 hs hs2 hw (by omega) (by omega)
  rw [a, b, MIN_eq_min]
  constructor <;> omega

theorem thrarg_rest (r f : rlstarg_t) (i : Int) (hs : 2 ≤ r.dataset_size)
    (hs2 : r.dataset_size ≤ INT_MAX) (hw : 2 ≤ r.thr_count)
    (hc : 1 ≤ Int.tdiv r.dataset_size r.thr_count) (hi : 2 ≤ i) (hiW : i < r.thr_count) :
    (thrarg r f i).from_ = i * Int.tdiv r.dataset_size r.thr_count ∧
    (thrarg r f i).to_ = Int.tdiv r.dataset_size r.thr_count ∧
    (thrarg r f i).to_ < (thrarg r f i).from_ := by
  obtain ⟨a, b, _⟩ := thrarg_range r f i hs hs2 hw (by omega) hiW
  have hic : 2 * Int.tdiv r.dataset_size r.thr_count ≤
      i * Int.tdiv r.dataset_size r.thr_count :=
    mul_le_mul_of_nonneg_right hi (by omega)
  rw [a, b, MIN_eq_min]
  refine ⟨rfl, ?_, ?_⟩ <;> omega

/-- What the multi-threaded path computes when `chunk = dataset_size / thr_count ≥ 1`:
the fold of `min` and `max` over `dataset[0..chunk]` only, started from the values the
argument record held on entry (combined with `INT_MAX` and 0). -/
theorem find_minmax_multi_thr_prefix (r : rlstarg_t) (fresh : Nat → rlstarg_t)
    (hs : 2 ≤ r.dataset_size) (hs2 : r.dataset_size ≤ INT_MAX) (hw : 2 ≤ r.thr_count)
    (hlen : (r.dataset.length : Int) = r.dataset_size)
    (hc : 1 ≤ Int.tdiv r.dataset_size r.thr_count) :
    find_minmax_multi_thr r fresh =
      .ok { r with
        min := (slice r.dataset 0 (Int.tdiv r.dataset_size r.thr_count + 1).toNat).foldl min
                (min r.min INT_MAX)
        max := (slice r.dataset 0 (Int.tdiv r.dataset_size r.thr_count + 1).toNat).foldl max
                (max r.max 0) } := by
  rw [find_minmax_multi_thr_ok r fresh hs hs2 hw hlen, fold_results_eq]
  obtain ⟨k, hk⟩ : ∃ k, r.thr_count.toNat = k + 2 := ⟨r.thr_count.toNat - 2, by omega⟩
  have z := thrarg_zero r (fresh 0) hs hs2 hw
  have o := thrarg_one r (fresh 1) hs hs2 hw hc
  have R := fun (i : Nat) (h1 : 2 ≤ (i : Int)) (h2 : (i : Int) < r.thr_count) =>
    thrarg_rest r (fresh i) i hs hs2 hw hc h1 h2
  generalize Int.tdiv r.dataset_size r.thr_count = c at z o R hc
  have f0 := thread_result_fields (thrarg r (fresh 0) ((0 : Nat) : Int)) r.dataset 0 (c - 1)
    rfl z.1 z.2
  have f1 := thread_result_fields (thrarg r (fresh 1) ((1 : Nat) : Int)) r.dataset c c
    rfl o.1 o.2
  have e0 : (c - 1 + 1 - 0).toNat = c.toNat := by congr 1; omega
  have e1 : (c + 1 - c).toNat = 1 := by
    have : c + 1 - c = 1 := by omega
    rw [this]; rfl
  rw [e0] at f0
  rw [e1] at f1
  have frest : ∀ i ∈ List.range' 2 k,
      (thread_result (thrarg r (fresh i) i)).min = INT_MAX ∧
      (thread_result (thrarg r (fresh i) i)).max = 0 := by
    intro i hi
    have hi2 := List.mem_range'_1.mp hi
    obtain ⟨a, b, lt⟩ := R i (by omega) (by omega)
    have := thread_result_fields (thrarg r (fresh i) i) r.dataset _ _ rfl a b
    have en : (c + 1 - (i : Int) * c).toNat = 0 := by
      rw [a, b] at lt
      omega
    rw [en] at this
    exact this
  have esl : slice r.dataset 0 (c + 1).toNat =
      slice r.dataset 0 c.toNat ++ slice r.dataset c 1 := by
    have e : (c + 1).toNat = c.toNat + 1 := by omega
    rw [e, slice_append _ _ _ _ (le_refl _)]
    congr 2
    omega
  rw [hk, List.range_eq_range', List.range'_succ, List.range'_succ]
  simp only [List.map_cons, List.foldl_cons, List.map_map]
  rw [f0.1, f0.2, f1.1, f1.2, esl]
  rw [combine_min r.min INT_MAX _ _ _ (by
        intro x hx
        obtain ⟨i, hi, rfl⟩ := List.mem_map.mp hx
        exact (frest i hi).1),
      combine_max r.max 0 _ _ _ (by
        intro x hx
        obtain ⟨i, hi, rfl⟩ := List.mem_map.mp hx
        exact (frest i hi).2)]

/-- C1 at `D = [2, 3, 2, 3, 0, 5]`, `W = 2`: the two threads scan the indices 0..3
only, and the fold starts from the values `rlst.min` and `rlst.max` held before the
call, which `main` never assigns. The result is `min = min(rlst0.min, 2)` and
`max = max(rlst0.max, 3)`, while the minimum of `D` is 0 and its maximum is 5. -/
theorem main_multi_misses_tail (rlst0 : rlstarg_t) (fresh : Nat → rlstarg_t) :
    ∃ r, main 6 (some 2) [2, 3, 2, 3, 0, 5] rlst0 fresh = .ok r ∧
      r.min = min rlst0.min 2 ∧ r.max = max rlst0.max 3 := by
  have h := find_minmax_multi_thr_prefix
    { rlst0 with err := 0, dataset_size := 6, from_ := 0, to_ := 6, thr_count := 2,
                 dataset := [2, 3, 2, 3, 0, 5] } fresh
    (by show (2 : Int) ≤ 6; decide) (by show (6 : Int) ≤ INT_MAX; decide)
    (by show (2 : Int) ≤ 2; decide) rfl (by show (1 : Int) ≤ Int.tdiv 6 2; decide)
  refine ⟨_, h, ?_, ?_⟩
  · show List.foldl min (min rlst0.min INT_MAX) [2, 3, 2, 3] = min rlst0.min 2
    simp only [List.foldl_cons, List.foldl_nil, INT_MAX]
    omega
  · show List.foldl max (max rlst0.max 0) [2, 3, 2, 3] = max rlst0.max 3
    simp only [List.foldl_cons, List.foldl_nil]
    omega

end FindMinmax
